import Mathlib

set_option maxHeartbeats 1000000
set_option autoImplicit false

/-!
Verification development for the RFP-analyzer repository
(src/rfp_analyzer.py, class RFPAnalyzer).

Python strings are modelled as lists of characters (`Str`); Python floats
are idealised as exact rationals (`ℚ`), so floating-point rounding is not
modelled.  External services (the embedding endpoint, the chat endpoint)
are modelled as oracle functions passed in as parameters; UI side effects
(streamlit writes, progress bars) carry no data and are dropped.
-/

abbrev Str := List Char

def s2c (s : String) : Str := s.data

/-- Python's whitespace predicate, as used by `str.strip()` and by
`str.split()` with no argument. -/
def pyIsSpace (c : Char) : Bool :=
  c == ' ' || c == '\t' || c == '\n' || c == '\r' ||
    c == Char.ofNat 11 || c == Char.ofNat 12

/-- Python `s.strip()`: remove leading and trailing whitespace. -/
def pyStrip (s : Str) : Str :=
  ((s.dropWhile pyIsSpace).reverse.dropWhile pyIsSpace).reverse

/-- Worker for `pySplitWs`; `acc` holds the current word, reversed. -/
def pySplitWsAux : Str → Str → List Str
  | [], acc => if acc.isEmpty then [] else [acc.reverse]
  | c :: rest, acc =>
    if pyIsSpace c then
      if acc.isEmpty then pySplitWsAux rest [] else acc.reverse :: pySplitWsAux rest []
    else pySplitWsAux rest (c :: acc)

/-- Python `s.split()` with no argument: split on runs of whitespace,
dropping empty pieces. -/
def pySplitWs (s : Str) : List Str := pySplitWsAux s []

/-- Python `text.split('. ')` (rfp_analyzer.py line 170): split on every
occurrence of the two-character separator, keeping empty pieces. -/
def splitDot : Str → List Str
  | [] => [[]]
  | [c] => [[c]]
  | c1 :: c2 :: rest =>
    if c1 == '.' && c2 == ' ' then [] :: splitDot rest
    else
      match splitDot (c2 :: rest) with
      | [] => [[c1]]
      | p :: ps => (c1 :: p) :: ps

/-- The separator `". "` that the chunker appends after sentence fragments. -/
def sep2 : Str := ['.', ' ']

/-- The word-level greedy packing loop shared by both passes of
`_split_text_into_chunks` (lines 188-200 and 215-227): accumulate
space-joined words while `len(temp + " " + word) <= max`; on overflow emit
`temp.strip()` (when non-empty) and restart from the overflowing word.
Returns (emitted chunks, final temp). -/
def packWords (maxc : Nat) : List Str → Str → List Str × Str
  | [], temp => ([], temp)
  | w :: ws, temp =>
    if temp.length + 1 + w.length ≤ maxc then
      packWords maxc ws (if temp.isEmpty then w else temp ++ ' ' :: w)
    else
      let r := packWords maxc ws w
      (if temp.isEmpty then r.1 else pyStrip temp :: r.1, r.2)

/-- The sentence-accumulation loop of `_split_text_into_chunks`
(lines 171-206), including the trailing `if current_chunk:` append. -/
def sentencePass (maxc : Nat) : List Str → Str → List Str
  | [], current => if current.isEmpty then [] else [pyStrip current]
  | s :: ss, current =>
    let test := current ++ s ++ sep2
    if test.length ≤ maxc then
      sentencePass maxc ss test
    else if !current.isEmpty then
      pyStrip current :: sentencePass maxc ss (s ++ sep2)
    else if maxc < s.length then
      let r := packWords maxc (pySplitWs s) []
      r.1 ++ sentencePass maxc ss (if r.2.isEmpty then [] else r.2 ++ sep2)
    else
      sentencePass maxc ss (s ++ sep2)

/-- The re-scan pass of `_split_text_into_chunks` (lines 208-227): chunks
still exceeding the limit are re-packed at word granularity. -/
def repack (maxc : Nat) : List Str → List Str
  | [] => []
  | c :: cs =>
    if c.length ≤ maxc then c :: repack maxc cs
    else
      let r := packWords maxc (pySplitWs c) []
      r.1 ++ (if r.2.isEmpty then [] else [pyStrip r.2]) ++ repack maxc cs

/-- The chunker `RFPAnalyzer._split_text_into_chunks(text, max_chunk_size)`
(rfp_analyzer.py lines 165-229). -/
def split_text_into_chunks (text : Str) (maxc : Nat) : List Str :=
  repack maxc (sentencePass maxc (splitDot text) [])

/-! ### Embedding aggregation (`get_embedding`, lines 123-163) -/

/-- The fixed chunking threshold of `get_embedding` (line 127). -/
def max_chunk_size : Nat := 4000

/-- The embedding dimension of the index schema (line 81). -/
def embeddingDimension : Nat := 1536

/-- Element-wise sum of a list of vectors (`np.sum` over axis 0 for
equal-length rows). -/
def vecSum : List (List ℚ) → List ℚ
  | [] => []
  | [v] => v
  | v :: vs => List.zipWith (· + ·) v (vecSum vs)

/-- The average `np.mean(embeddings, axis=0)` for equal-length rows:
element-wise arithmetic mean. -/
def vecMean (vs : List (List ℚ)) : List ℚ :=
  (vecSum vs).map (· / (vs.length : ℚ))

/-- Modelled from the spec: "the element-wise mean of each call's vector" —
the vector whose i-th entry is the arithmetic mean of the i-th entries of
the chunk vectors.  Used to state that `vecMean` refines the spec's words. -/
def meanSpec (vs : List (List ℚ)) (d : Nat) : List ℚ :=
  (List.range d).map (fun i => (vs.map (fun v => v.getD i 0)).sum / (vs.length : ℚ))

/-- The aggregator `RFPAnalyzer.get_embedding(text)` (lines 123-163), with the external
embedding service injected as the oracle `svc` (assumed never to raise
here; the fallible variant is `get_embedding_f` below).  The second
component counts the embedding requests issued. -/
def get_embedding (svc : Str → List ℚ) (text : Str) : List ℚ × Nat :=
  if text.length ≤ max_chunk_size then (svc text, 1)
  else
    let chunks := split_text_into_chunks text max_chunk_size
    let embeddings := chunks.map svc
    if embeddings.isEmpty then ([], chunks.length)
    else (vecMean embeddings, chunks.length)

/-- The per-chunk embedding loop (lines 145-152) with a fallible service:
a `none` from `svc` models a raised exception, which aborts the loop. -/
def embedChunksF (svc : Str → Option (List ℚ)) : List Str → Option (List (List ℚ))
  | [] => some []
  | c :: cs =>
    match svc c with
    | none => none
    | some v =>
      match embedChunksF svc cs with
      | none => none
      | some vs => some (v :: vs)

/-- Variant of `get_embedding` with a fallible service.  A `none` result models the
`except` branch (lines 161-163): the error is shown to the user via
`st.error` and `[]` is returned; `some v` models a normal return of `v`.
No partial state survives a failure. -/
def get_embedding_f (svc : Str → Option (List ℚ)) (text : Str) : Option (List ℚ) :=
  if text.length ≤ max_chunk_size then svc text
  else
    match embedChunksF svc (split_text_into_chunks text max_chunk_size) with
    | none => none
    | some embeddings =>
      some (if embeddings.isEmpty then [] else vecMean embeddings)

/-! ### JSON values, JSON-blob extraction and parsing
(`analyze_rfp_with_gpt`, lines 521-543) -/

/-- JSON-like values, modelling the Python values that `json.loads`
produces from the model response (dicts with string keys, lists, strings,
numbers, booleans, None). -/
inductive JVal where
  | str (s : Str)
  | num (q : ℚ)
  | jbool (b : Bool)
  | jnull
  | arr (xs : List JVal)
  | obj (fields : List (Str × JVal))

abbrev JDict := List (Str × JVal)

/-- The empty Python string as a JSON value (the default used by the
`dict.get(key, "")` calls of `store_rfp_in_search`). -/
def jEmpty : JVal := JVal.str []

/-- Python dict lookup on string keys. -/
def dictLookup : JDict → Str → Option JVal
  | [], _ => none
  | (k1, v) :: rest, k => if k1 == k then some v else dictLookup rest k

/-- Python `d.get(k, dflt)`. -/
def dget (d : JDict) (k : Str) (dflt : JVal) : JVal :=
  (dictLookup d k).getD dflt

/-- Views a value as a Python dict; `none` models the `AttributeError`
raised when `.get` is called on a non-dict value. -/
def asObj : JVal → Option JDict
  | JVal.obj fields => some fields
  | _ => none

/-- Python truthiness of a JSON-like value (`if req:` filtering at
line 584). -/
def pyTruthyJ : JVal → Bool
  | JVal.str s => !s.isEmpty
  | JVal.num q => !(decide (q = 0))
  | JVal.jbool b => b
  | JVal.jnull => false
  | JVal.arr xs => !xs.isEmpty
  | JVal.obj fields => !fields.isEmpty

def quoteChar : Char := Char.ofNat 34
def openBrace : Char := Char.ofNat 123
def closeBrace : Char := Char.ofNat 125
def singleQuote : Char := Char.ofNat 39

/-- Joins pieces with `", "` in between. -/
def joinComma (l : List Str) : Str := (l.intersperse (s2c ", ")).flatten

mutual

/-- Python `repr` on JSON-like values.  Escaping of quotes inside strings
is not modelled (no claim exercises it). -/
def pyRepr : JVal → Str
  | JVal.str s => singleQuote :: s ++ [singleQuote]
  | JVal.num q => s2c (toString q)
  | JVal.jbool b => if b then s2c "True" else s2c "False"
  | JVal.jnull => s2c "None"
  | JVal.arr xs => '[' :: joinComma (pyReprList xs) ++ [']']
  | JVal.obj fields => openBrace :: joinComma (pyReprFields fields) ++ [closeBrace]

def pyReprList : List JVal → List Str
  | [] => []
  | v :: vs => pyRepr v :: pyReprList vs

def pyReprFields : JDict → List Str
  | [] => []
  | (k, v) :: rest =>
    (singleQuote :: k ++ singleQuote :: ':' :: ' ' :: pyRepr v) :: pyReprFields rest

end

/-- Python `str()` / f-string formatting of a JSON-like value. -/
def pyStr (v : JVal) : Str :=
  match v with
  | JVal.str s => s
  | v => pyRepr v

/-- JSON whitespace. -/
def jsonWs (c : Char) : Bool := c == ' ' || c == '\t' || c == '\n' || c == '\r'

def skipWs (s : Str) : Str := s.dropWhile jsonWs

/-- Reads a JSON string body up to the closing quote.  Escape sequences
are not modelled (no claim exercises them). -/
def parseStringBody : Str → Option (Str × Str)
  | [] => none
  | c :: rest =>
    if c == quoteChar then some ([], rest)
    else
      match parseStringBody rest with
      | some (s, r) => some (c :: s, r)
      | none => none

def digitsToNat (ds : Str) : Nat :=
  ds.foldl (fun n c => 10 * n + (c.toNat - 48)) 0

/-- Reads a JSON number: optional minus, digits, optional fractional part.
Exponents are not modelled (no claim exercises them). -/
def parseNumber (s : Str) : Option (ℚ × Str) :=
  let p : Bool × Str := match s with
    | c :: r => if c == '-' then (true, r) else (false, s)
    | [] => (false, s)
  let ds := p.2.takeWhile Char.isDigit
  let s2 := p.2.dropWhile Char.isDigit
  if ds.isEmpty then none
  else
    let ip : ℚ := (digitsToNat ds : ℚ)
    let sign : ℚ := if p.1 then -1 else 1
    match s2 with
    | c :: r =>
      if c == '.' then
        let fs := r.takeWhile Char.isDigit
        let s3 := r.dropWhile Char.isDigit
        if fs.isEmpty then none
        else some (sign * (ip + (digitsToNat fs : ℚ) / (10 : ℚ) ^ fs.length), s3)
      else some (sign * ip, s2)
    | [] => some (sign * ip, s2)

mutual

/-- Fuel-indexed JSON value parser (the behaviour of `json.loads` on the
extracted span, restricted to the grammar above). -/
def parseVal : Nat → Str → Option (JVal × Str)
  | 0, _ => none
  | fuel + 1, s =>
    match skipWs s with
    | [] => none
    | c :: rest =>
      if c == quoteChar then
        match parseStringBody rest with
        | some (str, r) => some (JVal.str str, r)
        | none => none
      else if c == openBrace then
        match skipWs rest with
        | c2 :: r2 =>
          if c2 == closeBrace then some (JVal.obj [], r2)
          else
            match parseMembers fuel (c2 :: r2) with
            | some (fields, r) => some (JVal.obj fields, r)
            | none => none
        | [] => none
      else if c == '[' then
        match skipWs rest with
        | c2 :: r2 =>
          if c2 == ']' then some (JVal.arr [], r2)
          else
            match parseItems fuel (c2 :: r2) with
            | some (xs, r) => some (JVal.arr xs, r)
            | none => none
        | [] => none
      else
        match c :: rest with
        | 't' :: 'r' :: 'u' :: 'e' :: r => some (JVal.jbool true, r)
        | 'f' :: 'a' :: 'l' :: 's' :: 'e' :: r => some (JVal.jbool false, r)
        | 'n' :: 'u' :: 'l' :: 'l' :: r => some (JVal.jnull, r)
        | s1 =>
          match parseNumber s1 with
          | some (q, r) => some (JVal.num q, r)
          | none => none

/-- Parses the non-empty member list of a JSON object, after the `{`. -/
def parseMembers : Nat → Str → Option (JDict × Str)
  | 0, _ => none
  | fuel + 1, s =>
    match skipWs s with
    | [] => none
    | c :: rest =>
      if c == quoteChar then
        match parseStringBody rest with
        | none => none
        | some (k, r1) =>
          match skipWs r1 with
          | [] => none
          | c2 :: r2 =>
            if c2 == ':' then
              match parseVal fuel r2 with
              | none => none
              | some (v, r3) =>
                match skipWs r3 with
                | [] => none
                | c3 :: r4 =>
                  if c3 == ',' then
                    match parseMembers fuel r4 with
                    | some (fields, r5) => some ((k, v) :: fields, r5)
                    | none => none
                  else if c3 == closeBrace then some ([(k, v)], r4)
                  else none
            else none
      else none

/-- Parses the non-empty item list of a JSON array, after the `[`. -/
def parseItems : Nat → Str → Option (List JVal × Str)
  | 0, _ => none
  | fuel + 1, s =>
    match parseVal fuel s with
    | none => none
    | some (v, r1) =>
      match skipWs r1 with
      | [] => none
      | c :: r2 =>
        if c == ',' then
          match parseItems fuel r2 with
          | some (xs, r3) => some (v :: xs, r3)
          | none => none
        else if c == ']' then some ([v], r2)
        else none

end

/-- Python `json.loads(s)`: parse the whole string as one JSON value (trailing
whitespace allowed, any other trailing text is an error). -/
def json_loads (s : Str) : Option JVal :=
  match parseVal (s.length + 1) s with
  | some (v, rest) => if (skipWs rest).isEmpty then some v else none
  | none => none

/-- The regex search `re.search(r'\x7b.*\x7d', content, re.DOTALL)` (line 534): the match,
if any, runs from the first opening brace of `content` to the last closing
brace after it (leftmost start, greedy extent). -/
def span_match (s : Str) : Option Str :=
  match s.dropWhile (fun c => !(c == openBrace)) with
  | [] => none
  | _ :: body =>
    if body.contains closeBrace then
      some (openBrace :: (body.reverse.dropWhile (fun c => !(c == closeBrace))).reverse)
    else none

/-- The response-parsing step of `analyze_rfp_with_gpt` (lines 532-543):
extract the regex span and `json.loads` it.  `none` models the error path
(`st.error` plus `return \x7b\x7d` — no match, or a `json.loads`
exception caught by the surrounding `except`); no retry or repair
happens. -/
def analyze_parse (content : Str) : Option JVal :=
  match span_match content with
  | some g => json_loads g
  | none => none

/-- Modelled from the spec: "locate the first top-level bracketed object
span (outermost balanced `\x7b...\x7d` run)" — scan from the first opening
brace, tracking depth, and return through the matching closing brace.
Used only to exhibit how the code's greedy regex differs from this
description. -/
def fbAux : Str → Str → Nat → Option Str
  | [], _, _ => none
  | c :: rest, acc, d =>
    if c == openBrace then fbAux rest (c :: acc) (d + 1)
    else if c == closeBrace then
      if d ≤ 1 then some (c :: acc).reverse else fbAux rest (c :: acc) (d - 1)
    else fbAux rest (c :: acc) d

/-- Modelled from the spec: the first top-level balanced brace span of a
string.  (See `fbAux`.) -/
def firstBalancedSpan (s : Str) : Option Str :=
  match s.dropWhile (fun c => !(c == openBrace)) with
  | [] => none
  | t => fbAux t [] 0

/-! ### Flattening for storage (`store_rfp_in_search`, lines 545-607) -/

/-- Title resolution, derived path (lines 554-559): category-1 background
and outcome fields joined by a space, stripped, truncated to 100
characters, else the literal fallback. -/
def derived_title (a : JDict) : Option Str :=
  match dictLookup a (s2c "1_핵심개요") with
  | none => some (s2c "RFP Document")
  | some v =>
    match asObj v with
    | none => none
    | some core =>
      let ov := pyStrip (pyStr (dget core (s2c "배경목적") jEmpty) ++
        ' ' :: pyStr (dget core (s2c "기대성과") jEmpty))
      some (if ov.isEmpty then s2c "RFP Document" else ov.take 100)

/-- Title resolution with precedence (lines 551-559): a truthy externally
supplied `pdf_title` wins; otherwise the derived path. -/
def extract_title (pdf_title : Option Str) (a : JDict) : Option Str :=
  match pdf_title with
  | some t => if t.isEmpty then derived_title a else some t
  | none => derived_title a

/-- Budget extraction (lines 562-565). -/
def extract_budget (a : JDict) : Option JVal :=
  match dictLookup a (s2c "3_예산가격") with
  | none => some jEmpty
  | some v => (asObj v).map (fun info => dget info (s2c "추정예산") jEmpty)

/-- Submission deadline extraction (lines 568-571). -/
def extract_deadline (a : JDict) : Option JVal :=
  match dictLookup a (s2c "2_일정마일스톤") with
  | none => some jEmpty
  | some v => (asObj v).map (fun info => dget info (s2c "질의응답마감") jEmpty)

/-- Requirements extraction (lines 574-584): the five category-5
sub-fields, in source order, filtered by Python truthiness. -/
def extract_requirements (a : JDict) : Option (List JVal) :=
  match dictLookup a (s2c "5_요구사항") with
  | none => some []
  | some v =>
    (asObj v).map (fun info =>
      ([dget info (s2c "기능요구") jEmpty,
        dget info (s2c "비기능요구") jEmpty,
        dget info (s2c "인터페이스연계") jEmpty,
        dget info (s2c "데이터") jEmpty,
        dget info (s2c "호환성표준") jEmpty]).filter pyTruthyJ)

/-- Evaluation-criteria extraction (lines 587-594): stays the empty dict
when category 4 is absent; otherwise exactly the three sub-fields, each
defaulting to the empty string. -/
def extract_eval_criteria (a : JDict) : Option JDict :=
  match dictLookup a (s2c "4_평가선정기준") with
  | none => some []
  | some v =>
    (asObj v).map (fun info =>
      [(s2c "정량정성배점", dget info (s2c "정량정성배점") jEmpty),
       (s2c "가점감점요건", dget info (s2c "가점감점요건") jEmpty),
       (s2c "탈락필수요건", dget info (s2c "탈락필수요건") jEmpty)])

/-- The document built at lines 596-607.  The timestamp-derived `id` and
`created_date` fields depend on the external clock and are not modelled;
`requirements` and `evaluation_criteria` are kept as the values that the
code passes to `json.dumps`. -/
structure Document where
  title : Str
  content : Str
  requirements : List JVal
  project_type : JVal
  budget_range : JVal
  submission_deadline : JVal
  evaluation_criteria : JDict
  content_vector : List ℚ

/-- The pure flattening core of `store_rfp_in_search` (lines 545-607),
with the embedding vector passed in.  A `none` models the `except` branch
(line 612): an `AttributeError` from calling `.get` on a non-dict
analysis value aborts the whole store. -/
def store_document (a : JDict) (content : Str) (pdf_title : Option Str)
    (vec : List ℚ) : Option Document :=
  match extract_title pdf_title a, extract_budget a, extract_deadline a,
      extract_requirements a, extract_eval_criteria a with
  | some t, some b, some d, some r, some e =>
    some ⟨t, content, r, dget a (s2c "project_type") jEmpty, b, d, e, vec⟩
  | _, _, _, _, _ => none

/-- The top-level keys that the fixed 11-category prompt schema
(lines 438-518) instructs the model to emit. -/
def schemaKeys : List Str :=
  [s2c "1_핵심개요", s2c "2_일정마일스톤", s2c "3_예산가격",
   s2c "4_평가선정기준", s2c "5_요구사항", s2c "6_보안준법",
   s2c "7_서비스수준운영", s2c "8_품질검수인수", s2c "9_계약법무",
   s2c "10_공급사자격역량", s2c "11_제출형식지시",
   s2c "기술솔루션매핑", s2c "핵심키워드"]

/-- The five category-5 sub-field values in the order named by the spec
(functional, non-functional, interface/integration, data,
compatibility/standards), read with empty-string defaults. -/
def fiveSubfields (a : JDict) : List JVal :=
  let info := match dictLookup a (s2c "5_요구사항") with
    | some v => (asObj v).getD []
    | none => []
  [dget info (s2c "기능요구") jEmpty,
   dget info (s2c "비기능요구") jEmpty,
   dget info (s2c "인터페이스연계") jEmpty,
   dget info (s2c "데이터") jEmpty,
   dget info (s2c "호환성표준") jEmpty]

/-- A string free of Python whitespace: a single atomic word in the sense
of `str.split()`. -/
def wsFree (s : Str) : Prop := ∀ c ∈ s, pyIsSpace c = false

/-- The characters that chunking is expected to preserve: everything that
is neither whitespace (normalised by stripping and word-splitting) nor a
period (consumed and re-synthesised with the `'. '` separators). -/
def letters (s : Str) : Str := s.filter (fun c => !pyIsSpace c && !(c == '.'))

/-! ### Helper lemmas -/

theorem pyStrip_length_le (s : Str) : (pyStrip s).length ≤ s.length := by
  have h1 : (s.dropWhile pyIsSpace).length ≤ s.length :=
    (List.dropWhile_sublist pyIsSpace).length_le
  have h2 : ((s.dropWhile pyIsSpace).reverse.dropWhile pyIsSpace).length ≤
      (s.dropWhile pyIsSpace).reverse.length :=
    (List.dropWhile_sublist pyIsSpace).length_le
  simp only [List.length_reverse] at h2
  simp only [pyStrip, List.length_reverse]
  omega

theorem mem_pyStrip {c : Char} {s : Str} (h : c ∈ pyStrip s) : c ∈ s := by
  simp only [pyStrip, List.mem_reverse] at h
  have h1 := (List.dropWhile_sublist (l := (s.dropWhile pyIsSpace).reverse)
    pyIsSpace).subset h
  rw [List.mem_reverse] at h1
  exact (List.dropWhile_sublist pyIsSpace).subset h1

theorem wsFree_pyStrip {s : Str} (h : wsFree s) : wsFree (pyStrip s) :=
  fun c hc => h c (mem_pyStrip hc)

theorem pySplitWsAux_wsFree :
    ∀ (s acc : Str), wsFree acc → ∀ w ∈ pySplitWsAux s acc, wsFree w := by
  intro s
  induction s with
  | nil =>
    intro acc hacc w hw
    simp only [pySplitWsAux] at hw
    split at hw
    · simp at hw
    · simp only [List.mem_singleton] at hw
      subst hw
      intro c hc
      exact hacc c (List.mem_reverse.mp hc)
  | cons c rest ih =>
    intro acc hacc w hw
    simp only [pySplitWsAux] at hw
    by_cases hc : pyIsSpace c
    · rw [if_pos hc] at hw
      split at hw
      · exact ih [] (by intro x hx; simp at hx) w hw
      · rcases List.mem_cons.mp hw with h | h
        · subst h
          intro x hx
          exact hacc x (List.mem_reverse.mp hx)
        · exact ih [] (by intro x hx; simp at hx) w h
    · rw [if_neg hc] at hw
      refine ih (c :: acc) ?_ w hw
      intro x hx
      rcases List.mem_cons.mp hx with h | h
      · subst h; exact Bool.eq_false_iff.mpr hc
      · exact hacc x h

theorem pySplitWs_wsFree (s : Str) : ∀ w ∈ pySplitWs s, wsFree w :=
  pySplitWsAux_wsFree s [] (by intro x hx; simp at hx)

/-- Invariant of the greedy word-packing loop: if every input word is
whitespace-free and the incoming `temp` is small or whitespace-free, then
every emitted chunk is small or whitespace-free, and so is the final
`temp`. -/
theorem packWords_ok (maxc : Nat) :
    ∀ (ws : List Str) (temp : Str), (∀ w ∈ ws, wsFree w) →
      (temp.length ≤ maxc ∨ wsFree temp) →
      (∀ c ∈ (packWords maxc ws temp).1, c.length ≤ maxc ∨ wsFree c) ∧
        ((packWords maxc ws temp).2.length ≤ maxc ∨ wsFree (packWords maxc ws temp).2) := by
  intro ws
  induction ws with
  | nil =>
    intro temp _ htemp
    refine ⟨?_, htemp⟩
    intro c hc
    simp [packWords] at hc
  | cons w ws ih =>
    intro temp hws htemp
    have hw : wsFree w := hws w (List.mem_cons_self w ws)
    have hws' : ∀ x ∈ ws, wsFree x := fun x hx => hws x (List.mem_cons_of_mem w hx)
    simp only [packWords]
    split
    · rename_i hfit
      refine ih _ hws' ?_
      left
      split
      · rename_i he
        rw [List.isEmpty_iff] at he
        subst he
        simp only [List.length_nil] at hfit
        omega
      · simp only [List.length_append, List.length_cons]
        omega
    · have hrec := ih w hws' (Or.inr hw)
      constructor
      · intro c hc
        split at hc
        · exact hrec.1 c hc
        · rcases List.mem_cons.mp hc with h | h
          · subst h
            rcases htemp with h | h
            · exact Or.inl (le_trans (pyStrip_length_le temp) h)
            · exact Or.inr (wsFree_pyStrip h)
          · exact hrec.1 c h
      · exact hrec.2

/-- Every chunk produced by the re-scan pass is within the limit or is a
single whitespace-free token. -/
theorem repack_ok (maxc : Nat) :
    ∀ (cs : List Str), ∀ c ∈ repack maxc cs, c.length ≤ maxc ∨ wsFree c := by
  intro cs
  induction cs with
  | nil => intro c hc; simp [repack] at hc
  | cons x cs ih =>
    intro c hc
    simp only [repack] at hc
    split at hc
    · rcases List.mem_cons.mp hc with h | h
      · subst h; left; assumption
      · exact ih c h
    · have hpk := packWords_ok maxc (pySplitWs x) [] (pySplitWs_wsFree x)
        (Or.inl (by simp))
      rcases List.mem_append.mp hc with h | h
      · rcases List.mem_append.mp h with h | h
        · exact hpk.1 c h
        · split at h
          · simp at h
          · simp only [List.mem_singleton] at h
            subst h
            rcases hpk.2 with h2 | h2
            · exact Or.inl (le_trans (pyStrip_length_le _) h2)
            · exact Or.inr (wsFree_pyStrip h2)
      · exact ih c h

/-- C1: every chunk string returned by
`split_text_into_chunks(text, maxChunkSize)` has length ≤ maxChunkSize,
except that a chunk that is a single atomic word (it contains no
whitespace, so word-level packing cannot divide it further) may exceed the
limit; no word is ever cut. -/
theorem C1_chunk_size_bound (text : Str) (maxc : Nat) (hpos : 0 < maxc) :
    ∀ c ∈ split_text_into_chunks text maxc, c.length ≤ maxc ∨ wsFree c := by
  intro c hc
  have := hpos
  exact repack_ok maxc (sentencePass maxc (splitDot text) []) c hc

/-- Witness for C1 at `text = "ab"` and `maxChunkSize = 1`: the single
returned chunk is the oversized atomic word `"ab."`. -/
theorem C1_chunk_size_bound_witness :
    (0 < 1 ∧ s2c "ab." ∈ split_text_into_chunks (s2c "ab") 1) ∧
      ((s2c "ab.").length ≤ 1 ∨ wsFree (s2c "ab.")) :=
  ⟨⟨by decide, by decide⟩,
    C1_chunk_size_bound (s2c "ab") 1 (by decide) (s2c "ab.") (by decide)⟩

theorem letters_append (s t : Str) : letters (s ++ t) = letters s ++ letters t :=
  List.filter_append ..

theorem letters_nil : letters [] = [] := rfl

theorem letters_cons_split (c : Char) (s : Str) :
    letters (c :: s) = letters [c] ++ letters s := by
  simp only [letters, List.filter_cons, List.filter_nil]
  cases h : (!pyIsSpace c && !(c == '.')) <;> simp [h]

theorem letters_ws_cons {c : Char} (h : pyIsSpace c = true) (s : Str) :
    letters (c :: s) = letters s := by
  simp [letters, List.filter_cons, h]

theorem letters_dot_cons (s : Str) : letters ('.' :: s) = letters s := by
  simp [letters, List.filter_cons]

theorem letters_sep2 : letters sep2 = [] := rfl

theorem letters_sep2_append (s : Str) : letters (s ++ sep2) = letters s := by
  rw [letters_append, letters_sep2, List.append_nil]

theorem letters_flatten (L : List Str) :
    letters L.flatten = (L.map letters).flatten := by
  induction L with
  | nil => rfl
  | cons s L ih => simp only [List.flatten_cons, List.map_cons, letters_append, ih]

theorem letters_dropWhile_ws (s : Str) :
    letters (s.dropWhile pyIsSpace) = letters s := by
  induction s with
  | nil => rfl
  | cons c s ih =>
    by_cases hc : pyIsSpace c
    · rw [List.dropWhile_cons_of_pos (by simpa using hc), ih, letters_ws_cons hc]
    · rw [List.dropWhile_cons_of_neg (by simpa using hc)]

theorem letters_reverse (s : Str) : letters s.reverse = (letters s).reverse := by
  simp [letters, List.filter_reverse]

theorem letters_pyStrip (s : Str) : letters (pyStrip s) = letters s := by
  rw [pyStrip, letters_reverse, letters_dropWhile_ws, letters_reverse,
    List.reverse_reverse, letters_dropWhile_ws]

theorem letters_splitDot (s : Str) :
    ((splitDot s).map letters).flatten = letters s := by
  induction s using splitDot.induct with
  | case1 => rfl
  | case2 c => simp [splitDot]
  | case3 c1 c2 rest hsep ih =>
    have h1 : c1 = '.' ∧ c2 = ' ' := by
      simpa [Bool.and_eq_true, beq_iff_eq] using hsep
    rw [splitDot, if_pos hsep]
    simp only [List.map_cons, List.flatten_cons, ih]
    rw [h1.1, h1.2, letters_dot_cons, letters_ws_cons (by rfl)]
    rfl
  | case4 c1 c2 rest hsep hnil ih =>
    rw [splitDot, if_neg hsep, hnil]
    rw [hnil] at ih
    simp only [List.map_nil, List.flatten_nil] at ih
    simp only [List.map_cons, List.map_nil, List.flatten_cons, List.flatten_nil,
      List.append_nil]
    rw [letters_cons_split c1 (c2 :: rest), ← ih, List.append_nil]
  | case5 c1 c2 rest hsep p ps hcons ih =>
    rw [splitDot, if_neg hsep, hcons]
    rw [hcons] at ih
    simp only [List.map_cons, List.flatten_cons] at ih ⊢
    rw [letters_cons_split c1 p, letters_cons_split c1 (c2 :: rest),
      List.append_assoc, ih]

theorem letters_pySplitWsAux (s : Str) :
    ∀ acc : Str, ((pySplitWsAux s acc).map letters).flatten =
      letters acc.reverse ++ letters s := by
  induction s with
  | nil =>
    intro acc
    simp only [pySplitWsAux]
    split
    · rename_i he
      rw [List.isEmpty_iff] at he
      subst he
      rfl
    · simp [letters_nil]
  | cons c rest ih =>
    intro acc
    simp only [pySplitWsAux]
    by_cases hc : pyIsSpace c
    · rw [if_pos hc]
      split
      · rename_i he
        rw [List.isEmpty_iff] at he
        subst he
        rw [ih [], letters_ws_cons hc]
      · simp only [List.map_cons, List.flatten_cons, ih [], letters_ws_cons hc,
          List.reverse_nil, letters_nil, List.nil_append]
    · rw [if_neg hc, ih (c :: acc), List.reverse_cons, letters_append,
        letters_cons_split c rest, List.append_assoc]

theorem letters_pySplitWs (s : Str) :
    ((pySplitWs s).map letters).flatten = letters s := by
  rw [pySplitWs, letters_pySplitWsAux]
  rfl

theorem letters_packWords (maxc : Nat) :
    ∀ (ws : List Str) (temp : Str),
      letters (packWords maxc ws temp).1.flatten ++ letters (packWords maxc ws temp).2 =
        letters temp ++ (ws.map letters).flatten := by
  intro ws
  induction ws with
  | nil => intro temp; simp [packWords, letters_nil]
  | cons w ws ih =>
    intro temp
    simp only [packWords, List.map_cons, List.flatten_cons]
    split
    · rw [ih]
      split
      · rename_i he
        rw [List.isEmpty_iff] at he
        subst he
        simp [letters_nil]
      · rw [letters_append, letters_ws_cons (c := ' ') (by rfl) w, List.append_assoc]
    · split
      · rename_i he
        rw [List.isEmpty_iff] at he
        subst he
        rw [ih]
        simp [letters_nil]
      · rw [List.flatten_cons, letters_append, letters_pyStrip, List.append_assoc, ih]

theorem letters_sentencePass (maxc : Nat) :
    ∀ (ss : List Str) (current : Str),
      letters (sentencePass maxc ss current).flatten =
        letters current ++ (ss.map letters).flatten := by
  intro ss
  induction ss with
  | nil =>
    intro current
    simp only [sentencePass]
    split
    · rename_i he
      rw [List.isEmpty_iff] at he
      subst he
      rfl
    · simp [letters_pyStrip]
  | cons s ss ih =>
    intro current
    simp only [sentencePass, List.map_cons, List.flatten_cons]
    split
    · rw [ih, letters_sep2_append, letters_append, List.append_assoc]
    · split
      · rw [List.flatten_cons, letters_append, letters_pyStrip, ih,
          letters_sep2_append]
      · rename_i h1 h2
        have hcur : current = [] := by
          simpa [List.isEmpty_iff] using h2
        subst hcur
        split
        · rw [List.flatten_append, letters_append, ih]
          have hmid : letters (if (packWords maxc (pySplitWs s) []).2.isEmpty then []
              else (packWords maxc (pySplitWs s) []).2 ++ sep2) =
              letters (packWords maxc (pySplitWs s) []).2 := by
            split
            · rename_i he2
              rw [List.isEmpty_iff] at he2
              rw [he2]
            · exact letters_sep2_append _
          rw [hmid, ← List.append_assoc, letters_packWords maxc (pySplitWs s) [],
            letters_pySplitWs, letters_nil, List.nil_append, List.nil_append]
        · rw [ih, letters_sep2_append, letters_nil, List.nil_append]

theorem letters_repack (maxc : Nat) :
    ∀ cs : List Str, letters (repack maxc cs).flatten = (cs.map letters).flatten := by
  intro cs
  induction cs with
  | nil => rfl
  | cons c cs ih =>
    simp only [repack, List.map_cons, List.flatten_cons]
    split
    · rw [List.flatten_cons, letters_append, ih]
    · rw [List.flatten_append, List.flatten_append, letters_append, letters_append, ih]
      have hmid : letters (if (packWords maxc (pySplitWs c) []).2.isEmpty then []
          else [pyStrip (packWords maxc (pySplitWs c) []).2]).flatten =
          letters (packWords maxc (pySplitWs c) []).2 := by
        split
        · rename_i he2
          rw [List.isEmpty_iff] at he2
          rw [he2]
          rfl
        · simp [letters_pyStrip]
      rw [hmid, letters_packWords maxc (pySplitWs c) [],
        letters_pySplitWs, letters_nil, List.nil_append]

/-- C2 (amended): chunking preserves, in order, every character of the
input that is neither whitespace nor a period; whitespace may be dropped
or normalised and `'. '` separators re-synthesised, so exact
reconstruction of the input does not hold (see the counterexample). -/
theorem C2_letters_preserved (text : Str) (maxc : Nat) (hpos : 0 < maxc) :
    letters (split_text_into_chunks text maxc).flatten = letters text := by
  have := hpos
  rw [split_text_into_chunks, letters_repack, ← letters_flatten,
    letters_sentencePass, letters_nil, List.nil_append, letters_splitDot]

/-- Witness for C2 (amended) at `text = " a"`, `N = 10`. -/
theorem C2_letters_preserved_witness :
    0 < 10 ∧ letters (split_text_into_chunks (s2c " a") 10).flatten = letters (s2c " a") :=
  ⟨by decide, C2_letters_preserved (s2c " a") 10 (by decide)⟩

/-- C2 counterexample, in two parts, each tracing the real code.
(i) For `text = " a"` and `N = 10` the chunker returns the single chunk
`"a."`: the input's space character appears in no chunk, and with a single
chunk there is no between-chunk separator position at which a restoration
could reintroduce it — so the claim "no character of the input is lost by
chunking" is false as stated.  (ii) For `text = "   . x"` and `N = 2` the
chunker returns the single chunk `"x."`: the subsequence of non-whitespace
characters of the input is `".x"` while that of the output is `"x."` —
the input's separator period is dropped together with its all-whitespace
fragment, and a fresh period is synthesised after `"x"`.  Part (ii) shows
that even preservation of all non-whitespace characters in order fails, so
the amended statement must except periods as well as whitespace; the
amendment is thereby changed no more than this counterexample forces. -/
theorem C2_no_char_loss_counterexample :
    (split_text_into_chunks (s2c " a") 10 = [s2c "a."] ∧
      ' ' ∈ s2c " a" ∧ ' ' ∉ (split_text_into_chunks (s2c " a") 10).flatten) ∧
    (split_text_into_chunks (s2c "   . x") 2 = [s2c "x."] ∧
      (s2c "   . x").filter (fun c => !pyIsSpace c) = s2c ".x" ∧
      ((split_text_into_chunks (s2c "   . x") 2).flatten).filter
          (fun c => !pyIsSpace c) = s2c "x." ∧
      s2c ".x" ≠ s2c "x.") := by
  exact ⟨⟨by decide, by decide, by decide⟩,
    by decide, by decide, by decide, by decide⟩

theorem sentencePass_nil_frag (N : Nat) : sentencePass N [[]] [] = [['.']] := by
  simp only [sentencePass]
  split
  · rfl
  · split
    · rename_i h2
      simp at h2
    · split
      · rename_i h3
        simp at h3
      · rfl

/-- C9 (amended): for the empty input and every positive maxChunkSize, the
chunker returns the single chunk `"."` (the synthesized separator produced
from the lone empty fragment of `"".split('. ')`), not the empty
sequence. -/
theorem C9_empty_input_amended (N : Nat) (hpos : 0 < N) :
    split_text_into_chunks [] N = [s2c "."] := by
  have hsd : splitDot [] = [[]] := rfl
  rw [split_text_into_chunks, hsd, sentencePass_nil_frag]
  simp only [repack]
  rw [if_pos (by simpa using hpos)]
  rfl

/-- Witness for C9 (amended) at `maxChunkSize = 4000`. -/
theorem C9_empty_input_amended_witness :
    0 < 4000 ∧ split_text_into_chunks [] 4000 = [s2c "."] :=
  ⟨by decide, C9_empty_input_amended 4000 (by decide)⟩

/-- C9 counterexample: at `maxChunkSize = 4000` the chunker maps the empty
input to the one-element sequence `["."]`, not to the empty sequence the
claim states. -/
theorem C9_empty_input_counterexample :
    split_text_into_chunks (s2c "") 4000 = [s2c "."] ∧ [s2c "."] ≠ ([] : List Str) := by
  exact ⟨by decide, by simp⟩

theorem vecSum_length (d : Nat) :
    ∀ vs : List (List ℚ), vs ≠ [] → (∀ v ∈ vs, v.length = d) →
      (vecSum vs).length = d := by
  intro vs
  induction vs with
  | nil => intro h; exact absurd rfl h
  | cons v vs ih =>
    intro _ hall
    cases vs with
    | nil => simpa using hall v (by simp)
    | cons w ws =>
      have hv : v.length = d := hall v (by simp)
      have hrest : (vecSum (w :: ws)).length = d :=
        ih (by simp) (fun x hx => hall x (List.mem_cons_of_mem _ hx))
      show (List.zipWith (· + ·) v (vecSum (w :: ws))).length = d
      rw [List.length_zipWith, hv, hrest]
      exact Nat.min_self d

theorem vecSum_getD (d : Nat) :
    ∀ vs : List (List ℚ), vs ≠ [] → (∀ v ∈ vs, v.length = d) →
      ∀ i : Nat, i < d →
        (vecSum vs).getD i 0 = (vs.map (fun v => v.getD i 0)).sum := by
  intro vs
  induction vs with
  | nil => intro h; exact absurd rfl h
  | cons v vs ih =>
    intro _ hall i hi
    cases vs with
    | nil =>
      show v.getD i 0 = (List.map (fun v => v.getD i 0) [v]).sum
      simp
    | cons w ws =>
      have hv : v.length = d := hall v (by simp)
      have hall' : ∀ x ∈ w :: ws, x.length = d :=
        fun x hx => hall x (List.mem_cons_of_mem _ hx)
      have hrest := ih (by simp) hall' i hi
      have hlsum : (vecSum (w :: ws)).length = d := vecSum_length d _ (by simp) hall'
      have hzlen : i < (List.zipWith (· + ·) v (vecSum (w :: ws))).length := by
        rw [List.length_zipWith, hv, hlsum, Nat.min_self]; exact hi
      show (List.zipWith (· + ·) v (vecSum (w :: ws))).getD i 0 = _
      rw [List.getD_eq_getElem _ _ hzlen, List.getElem_zipWith,
        ← List.getD_eq_getElem v (0 : ℚ) (by omega : i < v.length),
        ← List.getD_eq_getElem (vecSum (w :: ws)) (0 : ℚ) (by omega), hrest]
      simp

theorem vecMean_length (d : Nat) (vs : List (List ℚ)) (hne : vs ≠ [])
    (hall : ∀ v ∈ vs, v.length = d) : (vecMean vs).length = d := by
  rw [vecMean, List.length_map]
  exact vecSum_length d vs hne hall

/-- The code's `vecMean` refines the spec's words: it is the vector whose i-th entry
is the arithmetic mean of the i-th entries of the input vectors. -/
theorem vecMean_eq_meanSpec (d : Nat) (vs : List (List ℚ)) (hne : vs ≠ [])
    (hall : ∀ v ∈ vs, v.length = d) : vecMean vs = meanSpec vs d := by
  apply List.ext_getElem
  · rw [vecMean_length d vs hne hall, meanSpec, List.length_map, List.length_range]
  · intro i h1 h2
    have hid : i < d := by
      rw [vecMean_length d vs hne hall] at h1; exact h1
    have hsl : i < (vecSum vs).length := by
      rw [vecSum_length d vs hne hall]; exact hid
    have hkey := vecSum_getD d vs hne hall i hid
    rw [List.getD_eq_getElem (vecSum vs) (0 : ℚ) hsl] at hkey
    simp only [vecMean, meanSpec, List.getElem_map, List.getElem_range, hkey]

/-- C3 (amended): for text within the 4000-character threshold,
`get_embedding` issues exactly one request and returns its vector; for
longer text it issues one request per chunk, in document order, and — when
the chunking is non-empty — returns the element-wise arithmetic mean of
the chunk vectors, of length `embeddingDimension`; when the chunking is
empty (possible only for degenerate all-whitespace input, see the
counterexample) it issues 0 requests and returns the empty vector, so the
constant-length guarantee fails there. -/
theorem C3_embed_calls_and_mean (svc : Str → List ℚ) (text : Str)
    (hdim : ∀ s, (svc s).length = embeddingDimension) :
    (text.length ≤ max_chunk_size →
      get_embedding svc text = (svc text, 1) ∧
        (get_embedding svc text).1.length = embeddingDimension) ∧
    (max_chunk_size < text.length →
      (get_embedding svc text).2 = (split_text_into_chunks text max_chunk_size).length ∧
      (split_text_into_chunks text max_chunk_size ≠ [] →
        (get_embedding svc text).1 =
          meanSpec ((split_text_into_chunks text max_chunk_size).map svc)
            embeddingDimension ∧
        (get_embedding svc text).1.length = embeddingDimension) ∧
      (split_text_into_chunks text max_chunk_size = [] →
        (get_embedding svc text).1 = [])) := by
  constructor
  · intro hle
    rw [get_embedding, if_pos hle]
    exact ⟨rfl, hdim text⟩
  · intro hgt
    have hnle : ¬ text.length ≤ max_chunk_size := by omega
    simp only [get_embedding, if_neg hnle]
    refine ⟨?_, ?_, ?_⟩
    · split <;> rfl
    · intro hne
      have hmne : (split_text_into_chunks text max_chunk_size).map svc ≠ [] := by
        simpa using hne
      have hall : ∀ v ∈ (split_text_into_chunks text max_chunk_size).map svc,
          v.length = embeddingDimension := by
        intro v hv
        obtain ⟨c, _, rfl⟩ := List.mem_map.mp hv
        exact hdim c
      rw [if_neg (by simpa [List.isEmpty_iff] using hmne)]
      exact ⟨vecMean_eq_meanSpec _ _ hmne hall,
        vecMean_length _ _ hmne hall⟩
    · intro hnil
      rw [if_pos (by simp [hnil])]

/-- Witness for C3 (amended): a one-character text takes the single-call
path and returns the service's vector unchanged. -/
theorem C3_embed_calls_and_mean_witness :
    (['a'] : Str).length ≤ max_chunk_size ∧
      get_embedding (fun _ => List.replicate embeddingDimension (0 : ℚ)) ['a'] =
        (List.replicate embeddingDimension (0 : ℚ), 1) :=
  ⟨by decide,
    ((C3_embed_calls_and_mean (fun _ => List.replicate embeddingDimension (0 : ℚ))
      ['a'] (fun _ => by simp)).1 (by decide)).1⟩

theorem splitDot_no_dot : ∀ s : Str, '.' ∉ s → splitDot s = [s] := by
  intro s
  induction s using splitDot.induct with
  | case1 => intro _; rfl
  | case2 c => intro _; rfl
  | case3 c1 c2 rest hsep ih =>
    intro hnd
    exfalso
    obtain ⟨h1, h2⟩ :=
      (by simpa [Bool.and_eq_true, beq_iff_eq] using hsep : c1 = '.' ∧ c2 = ' ')
    subst h1
    exact hnd (List.mem_cons_self _ _)
  | case4 c1 c2 rest hsep hnil ih =>
    intro hnd
    exfalso
    have : splitDot (c2 :: rest) = [c2 :: rest] :=
      ih (fun h => hnd (List.mem_cons_of_mem _ h))
    rw [hnil] at this
    cases this
  | case5 c1 c2 rest hsep p ps hcons ih =>
    intro hnd
    have : splitDot (c2 :: rest) = [c2 :: rest] :=
      ih (fun h => hnd (List.mem_cons_of_mem _ h))
    rw [splitDot, if_neg hsep, hcons]
    rw [hcons] at this
    injection this with h1 h2
    subst h1
    subst h2
    rfl

theorem pySplitWsAux_all_ws :
    ∀ s : Str, (∀ c ∈ s, pyIsSpace c = true) → pySplitWsAux s [] = [] := by
  intro s
  induction s with
  | nil => intro _; rfl
  | cons c rest ih =>
    intro h
    have hc : pyIsSpace c = true := h c (by simp)
    simp only [pySplitWsAux, if_pos hc, List.isEmpty_nil, if_pos rfl]
    exact ih (fun x hx => h x (List.mem_cons_of_mem _ hx))

theorem pySplitWs_all_ws (s : Str) (h : ∀ c ∈ s, pyIsSpace c = true) :
    pySplitWs s = [] :=
  pySplitWsAux_all_ws s h

theorem pySplitWsAux_no_ws :
    ∀ s acc : Str, (∀ c ∈ s, pyIsSpace c = false) →
      pySplitWsAux s acc =
        if (acc.reverse ++ s).isEmpty then [] else [acc.reverse ++ s] := by
  intro s
  induction s with
  | nil =>
    intro acc _
    simp only [pySplitWsAux, List.append_nil]
    by_cases ha : acc = []
    · subst ha; rfl
    · rw [if_neg (by simpa [List.isEmpty_iff] using ha),
        if_neg (by simpa [List.isEmpty_iff] using ha)]
  | cons c rest ih =>
    intro acc h
    have hc : pyIsSpace c = false := h c (by simp)
    simp only [pySplitWsAux, hc, Bool.false_eq_true, if_false]
    rw [ih (c :: acc) (fun x hx => h x (List.mem_cons_of_mem _ hx))]
    have harr : (c :: acc).reverse ++ rest = acc.reverse ++ c :: rest := by
      rw [List.reverse_cons, List.append_assoc]
      rfl
    rw [harr]

theorem pySplitWs_no_ws (s : Str) (hne : s ≠ [])
    (h : ∀ c ∈ s, pyIsSpace c = false) : pySplitWs s = [s] := by
  rw [pySplitWs, pySplitWsAux_no_ws s [] h]
  simp [List.isEmpty_iff, hne]

theorem dropWhile_no_ws {s : Str} (h : ∀ c ∈ s, pyIsSpace c = false) :
    s.dropWhile pyIsSpace = s := by
  cases s with
  | nil => rfl
  | cons c rest =>
    rw [List.dropWhile_cons_of_neg]
    simp [h c (by simp)]

theorem pyStrip_eq_self {s : Str} (h : ∀ c ∈ s, pyIsSpace c = false) :
    pyStrip s = s := by
  rw [pyStrip, dropWhile_no_ws h,
    dropWhile_no_ws (fun c hc => h c (List.mem_reverse.mp hc)), List.reverse_reverse]

theorem dropWhile_append_of_all {p : Char → Bool} :
    ∀ l1 l2 : Str, (∀ c ∈ l1, p c = true) →
      (l1 ++ l2).dropWhile p = l2.dropWhile p := by
  intro l1
  induction l1 with
  | nil => intro l2 _; rfl
  | cons c rest ih =>
    intro l2 h
    rw [List.cons_append, List.dropWhile_cons_of_pos (by simpa using h c (by simp))]
    exact ih l2 (fun x hx => h x (List.mem_cons_of_mem _ hx))

/-- Stripping a string made of a whitespace-free non-empty core followed by
a whitespace tail returns the core. -/
theorem pyStrip_core_ws_tail {s t : Str} (hne : s ≠ [])
    (hs : ∀ c ∈ s, pyIsSpace c = false) (ht : ∀ c ∈ t, pyIsSpace c = true) :
    pyStrip (s ++ t) = s := by
  rw [pyStrip]
  have h1 : (s ++ t).dropWhile pyIsSpace = s ++ t := by
    cases s with
    | nil => exact absurd rfl hne
    | cons c rest =>
      rw [List.cons_append, List.dropWhile_cons_of_neg]
      simp [hs c (by simp)]
  rw [h1, List.reverse_append, dropWhile_append_of_all _ _
    (fun c hc => ht c (List.mem_reverse.mp hc)),
    dropWhile_no_ws (fun c hc => hs c (List.mem_reverse.mp hc)), List.reverse_reverse]

theorem spaces_length : (List.replicate 4001 ' ' : Str).length = 4001 :=
  List.length_replicate ..

theorem sp_spaces4001 :
    sentencePass max_chunk_size [List.replicate 4001 ' '] [] = [] := by
  simp only [sentencePass]
  split
  · rename_i h
    rw [List.nil_append, List.length_append, spaces_length] at h
    exact absurd h (by decide)
  · split
    · rename_i h
      simp at h
    · split
      · rw [pySplitWs_all_ws _ (by
          intro c hc
          have := (List.mem_replicate.mp hc).2
          subst this
          rfl)]
        rfl
      · rename_i h
        rw [spaces_length] at h
        exact absurd (by decide) h

theorem chunks_spaces4001 :
    split_text_into_chunks (List.replicate 4001 ' ') max_chunk_size = [] := by
  have hdot : ('.' : Char) ∉ List.replicate 4001 ' ' := by
    intro hmem
    exact absurd (List.mem_replicate.mp hmem).2 (by decide)
  rw [split_text_into_chunks, splitDot_no_dot _ hdot, sp_spaces4001]
  rfl

/-- C3 counterexample: 4001 whitespace characters exceed the threshold but
chunk to nothing, so `get_embedding` issues 0 requests and returns the
empty vector — the returned vector does not have length 1536 there. -/
theorem C3_constant_dim_counterexample :
    max_chunk_size < (List.replicate 4001 ' ' : Str).length ∧
      get_embedding (fun _ => List.replicate embeddingDimension (0 : ℚ))
        (List.replicate 4001 ' ') = ([], 0) ∧
      ([] : List ℚ).length ≠ embeddingDimension := by
  refine ⟨by rw [spaces_length]; decide, ?_, by decide⟩
  have hnle : ¬ (List.replicate 4001 ' ' : Str).length ≤ max_chunk_size := by
    rw [spaces_length]
    decide
  simp only [get_embedding, if_neg hnle, chunks_spaces4001]
  rfl

def aLong : Str := 'a' :: List.replicate 4000 'a'

theorem aLong_length : aLong.length = 4001 := by
  unfold aLong
  rw [List.length_cons, List.length_replicate]

theorem aLong_ne_nil : aLong ≠ [] := by
  unfold aLong
  exact List.cons_ne_nil _ _

theorem aLong_wsfree : ∀ c ∈ aLong, pyIsSpace c = false := by
  intro c hc
  have : c = 'a' := by
    rcases List.mem_cons.mp hc with h | h
    · exact h
    · exact (List.mem_replicate.mp h).2
  subst this
  rfl

theorem chunk1_length : (aLong ++ ['.']).length = 4002 := by
  rw [List.length_append, aLong_length]
  rfl

theorem chunk1_ne_nil : aLong ++ ['.'] ≠ [] := by
  intro h
  exact aLong_ne_nil (List.append_eq_nil.mp h).1

theorem chunk1_wsfree : ∀ c ∈ aLong ++ ['.'], pyIsSpace c = false := by
  intro c hc
  rcases List.mem_append.mp hc with h | h
  · exact aLong_wsfree c h
  · simp only [List.mem_singleton] at h
    subst h
    rfl

theorem strip_aLong_sep : pyStrip (aLong ++ sep2) = aLong ++ ['.'] := by
  have hsplit : aLong ++ sep2 = (aLong ++ ['.']) ++ [' '] := by
    rw [List.append_assoc]
    rfl
  rw [hsplit]
  refine pyStrip_core_ws_tail chunk1_ne_nil chunk1_wsfree ?_
  intro c hc
  simp only [List.mem_singleton] at hc
  subst hc
  rfl

theorem pack_aLong : packWords max_chunk_size [aLong] [] = ([], aLong) := by
  simp only [packWords]
  rw [if_neg (by rw [List.length_nil, aLong_length]; decide)]
  rfl

theorem pack_chunk1 :
    packWords max_chunk_size [aLong ++ ['.']] [] = ([], aLong ++ ['.']) := by
  simp only [packWords]
  rw [if_neg (by rw [List.length_nil, chunk1_length]; decide)]
  rfl

theorem sp_aLong : sentencePass max_chunk_size [aLong] [] = [aLong ++ ['.']] := by
  simp only [sentencePass]
  split
  · rename_i h
    rw [List.nil_append, List.length_append, aLong_length] at h
    exact absurd h (by decide)
  · split
    · rename_i h
      simp at h
    · split
      · rw [pySplitWs_no_ws aLong aLong_ne_nil aLong_wsfree, pack_aLong]
        rw [if_neg (by decide)]
        simp only [List.nil_append, sentencePass]
        rw [if_neg (by decide), strip_aLong_sep]
      · rename_i h
        rw [aLong_length] at h
        exact absurd (by decide) h

theorem chunks_aLong :
    split_text_into_chunks aLong max_chunk_size = [aLong ++ ['.']] := by
  have hdot : ('.' : Char) ∉ aLong := by
    intro hmem
    have : ('.' : Char) = 'a' := by
      rcases List.mem_cons.mp hmem with h | h
      · exact h
      · exact (List.mem_replicate.mp h).2
    exact absurd this (by decide)
  rw [split_text_into_chunks, splitDot_no_dot _ hdot, sp_aLong]
  simp only [repack]
  rw [if_neg (by rw [chunk1_length]; decide)]
  rw [pySplitWs_no_ws _ chunk1_ne_nil chunk1_wsfree, pack_chunk1]
  rw [if_neg (by decide), pyStrip_eq_self chunk1_wsfree]
  rfl

theorem embedChunksF_eq_none (svc : Str → Option (List ℚ)) :
    ∀ l : List Str, embedChunksF svc l = none ↔ ∃ c ∈ l, svc c = none := by
  intro l
  induction l with
  | nil => simp [embedChunksF]
  | cons c cs ih =>
    simp only [embedChunksF]
    cases hc : svc c with
    | none =>
      refine iff_of_true rfl ⟨c, by simp, hc⟩
    | some v =>
      cases hr : embedChunksF svc cs with
      | none =>
        refine iff_of_true rfl ?_
        obtain ⟨x, hx, hxn⟩ := ih.mp hr
        exact ⟨x, List.mem_cons_of_mem _ hx, hxn⟩
      | some vs =>
        refine iff_of_false (by simp) ?_
        rintro ⟨x, hx, hxn⟩
        rcases List.mem_cons.mp hx with h | h
        · subst h
          rw [hc] at hxn
          cases hxn
        · have := ih.mpr ⟨x, h, hxn⟩
          rw [hr] at this
          cases this

/-- C8: for text on the multi-chunk path, a failure of any single
embedding request aborts the whole aggregation — the result is the error
path (`st.error` and an empty return), the already-embedded chunk vectors
are discarded, and a successful result is only ever produced when every
chunk request succeeded (so no partial average is ever returned). -/
theorem C8_failure_aborts (svc : Str → Option (List ℚ)) (text : Str)
    (hlong : max_chunk_size < text.length) :
    ((∃ c ∈ split_text_into_chunks text max_chunk_size, svc c = none) →
      get_embedding_f svc text = none) ∧
    (∀ v, get_embedding_f svc text = some v →
      ∃ vs, embedChunksF svc (split_text_into_chunks text max_chunk_size) = some vs ∧
        (∀ c ∈ split_text_into_chunks text max_chunk_size, (svc c).isSome) ∧
        v = if vs.isEmpty then [] else vecMean vs) := by
  have hnle : ¬ text.length ≤ max_chunk_size := by omega
  constructor
  · intro hex
    rw [get_embedding_f, if_neg hnle, (embedChunksF_eq_none svc _).mpr hex]
  · intro v hv
    rw [get_embedding_f, if_neg hnle] at hv
    cases hr : embedChunksF svc (split_text_into_chunks text max_chunk_size) with
    | none =>
      rw [hr] at hv
      cases hv
    | some vs =>
      rw [hr] at hv
      refine ⟨vs, rfl, ?_, (Option.some.inj hv).symm⟩
      intro c hc
      cases hsc : svc c with
      | none =>
        have := (embedChunksF_eq_none svc _).mpr ⟨c, hc, hsc⟩
        rw [hr] at this
        cases this
      | some _ => rfl

/-- Witness for C8: a 4001-character text whose only chunk request fails
yields the error result. -/
theorem C8_failure_aborts_witness :
    get_embedding_f (fun _ => none) aLong = none :=
  (C8_failure_aborts (fun _ => none) aLong
      (by rw [aLong_length]; decide)).1
    ⟨aLong ++ ['.'], by rw [chunks_aLong]; exact List.mem_singleton.mpr rfl, rfl⟩

theorem span_match_greedy (pre u post : Str)
    (hpre : openBrace ∉ pre) (hpost : closeBrace ∉ post) :
    span_match (pre ++ (openBrace :: (u ++ [closeBrace])) ++ post) =
      some (openBrace :: (u ++ [closeBrace])) := by
  have hpre' : ∀ c ∈ pre, (!(c == openBrace)) = true := by
    intro c hc
    have hne : c ≠ openBrace := fun h => hpre (h ▸ hc)
    simp [hne]
  have hpost' : ∀ c ∈ post.reverse, (!(c == closeBrace)) = true := by
    intro c hc
    have hne : c ≠ closeBrace := fun h => hpost (h ▸ List.mem_reverse.mp hc)
    simp [hne]
  have hdrop : (pre ++ (openBrace :: (u ++ [closeBrace])) ++ post).dropWhile
      (fun c => !(c == openBrace)) =
      openBrace :: ((u ++ [closeBrace]) ++ post) := by
    rw [List.append_assoc, dropWhile_append_of_all pre _ hpre',
      List.cons_append, List.dropWhile_cons_of_neg (by simp)]
  have hmem : closeBrace ∈ (u ++ [closeBrace]) ++ post :=
    List.mem_append.mpr (Or.inl (List.mem_append.mpr (Or.inr (List.mem_singleton.mpr rfl))))
  have hcontains : ((u ++ [closeBrace]) ++ post).contains closeBrace = true :=
    List.elem_iff.mpr hmem
  have hbody : ((((u ++ [closeBrace]) ++ post).reverse.dropWhile
      (fun c => !(c == closeBrace))).reverse) = u ++ [closeBrace] := by
    rw [List.reverse_append, dropWhile_append_of_all _ _ hpost',
      List.reverse_append, List.reverse_singleton, List.singleton_append,
      List.dropWhile_cons_of_neg (by simp), List.reverse_cons, List.reverse_reverse]
  simp only [span_match, hdrop, hcontains, if_pos, hbody]

/-- C7 (amended): the analyzer extracts the greedy regex span running from
the first opening brace of the response to the last closing brace, and
`json.loads`-parses exactly that span; prose before the first opening
brace and after the last closing brace is ignored.  When no such span
exists, or when `json.loads` fails on the greedy span, the result is the
error path, with no retry or repair.  (This differs from parsing the first
top-level balanced span — see the counterexample.) -/
theorem C7_greedy_span_parse (pre u post : Str)
    (hpre : openBrace ∉ pre) (hpost : closeBrace ∉ post) :
    span_match (pre ++ (openBrace :: (u ++ [closeBrace])) ++ post) =
      some (openBrace :: (u ++ [closeBrace])) ∧
    analyze_parse (pre ++ (openBrace :: (u ++ [closeBrace])) ++ post) =
      json_loads (openBrace :: (u ++ [closeBrace])) := by
  have h := span_match_greedy pre u post hpre hpost
  exact ⟨h, by simp only [analyze_parse, h]⟩

/-- Witness for C7 (amended): explanatory prose followed by a single JSON
object parses successfully, ignoring the prose. -/
theorem C7_greedy_span_parse_witness :
    (openBrace ∉ s2c "Here is the result: " ∧ closeBrace ∉ ([] : Str)) ∧
    analyze_parse (s2c "Here is the result: " ++
        (openBrace :: (s2c "\"a\": \"b\"" ++ [closeBrace])) ++ []) =
      json_loads (openBrace :: (s2c "\"a\": \"b\"" ++ [closeBrace])) ∧
    json_loads (openBrace :: (s2c "\"a\": \"b\"" ++ [closeBrace])) =
      some (JVal.obj [(s2c "a", JVal.str (s2c "b"))]) :=
  ⟨⟨by decide, by decide⟩,
    (C7_greedy_span_parse (s2c "Here is the result: ") (s2c "\"a\": \"b\"") []
      (by decide) (by decide)).2,
    rfl⟩

/-- C7 counterexample: for a response consisting of prose, one JSON
object, and one stray trailing closing brace, the first top-level balanced
brace span parses successfully to the object — yet the code's greedy regex
takes the span up to the last closing brace, `json.loads` raises on it,
and the analyzer returns the error result, not the parsed object.  The
claim that the analyzer locates and parses exactly the first top-level
balanced span (succeeding on prose followed by a single JSON object) is
false as stated. -/
theorem C7_first_balanced_counterexample :
    analyze_parse (s2c "Result: \x7b\"a\": \"b\"\x7d \x7d") = none ∧
    firstBalancedSpan (s2c "Result: \x7b\"a\": \"b\"\x7d \x7d") =
      some (s2c "\x7b\"a\": \"b\"\x7d") ∧
    json_loads (s2c "\x7b\"a\": \"b\"\x7d") =
      some (JVal.obj [(s2c "a", JVal.str (s2c "b"))]) :=
  ⟨rfl, rfl, rfl⟩

/-- Destructuring of a successful `store_document`. -/
theorem store_document_eq_some {a : JDict} {content : Str} {pt : Option Str}
    {vec : List ℚ} {doc : Document} :
    store_document a content pt vec = some doc ↔
      ∃ t b d r e, extract_title pt a = some t ∧ extract_budget a = some b ∧
        extract_deadline a = some d ∧ extract_requirements a = some r ∧
        extract_eval_criteria a = some e ∧
        doc = ⟨t, content, r, dget a (s2c "project_type") jEmpty, b, d, e, vec⟩ := by
  constructor
  · intro h
    unfold store_document at h
    split at h
    · rename_i t b d r e ht hb hd hr he
      exact ⟨t, b, d, r, e, ht, hb, hd, hr, he, (Option.some.inj h).symm⟩
    · exact Option.noConfusion h
  · rintro ⟨t, b, d, r, e, ht, hb, hd, hr, he, rfl⟩
    unfold store_document
    rw [ht, hb, hd, hr, he]

/-- C4: for every analysis object that flattens successfully, the stored
requirements value is the list of exactly the five category-5 sub-fields,
in order (functional, non-functional, interface/integration, data,
compatibility/standards), with Python-falsy (empty) values filtered out;
and the end-to-end scenario with category 5 holding only the
non-functional sub-field bound to a non-empty string yields exactly that
one-element list. -/
theorem C4_requirements_flattening :
    (∀ (a : JDict) (content : Str) (pt : Option Str) (vec : List ℚ) (doc : Document),
      store_document a content pt vec = some doc →
      doc.requirements = (fiveSubfields a).filter pyTruthyJ) ∧
    (store_document
        [(s2c "5_요구사항",
          JVal.obj [(s2c "비기능요구", JVal.str (s2c "load ≥ 1000 rps"))])]
        (s2c "content") none []).map Document.requirements =
      some [JVal.str (s2c "load ≥ 1000 rps")] := by
  constructor
  · intro a content pt vec doc hdoc
    obtain ⟨t, b, d, r, e, ht, hb, hd, hr, he, rfl⟩ :=
      store_document_eq_some.mp hdoc
    show r = (fiveSubfields a).filter pyTruthyJ
    cases hlk : dictLookup a (s2c "5_요구사항") with
    | none =>
      simp only [extract_requirements, hlk, Option.some.injEq] at hr
      subst hr
      simp only [fiveSubfields, hlk]
      rfl
    | some v =>
      cases hobj : asObj v with
      | none =>
        simp only [extract_requirements, hlk, hobj, Option.map_none'] at hr
        exact Option.noConfusion hr
      | some info =>
        simp only [extract_requirements, hlk, hobj, Option.map_some',
          Option.some.injEq] at hr
        subst hr
        simp only [fiveSubfields, hlk, hobj, Option.getD_some]
  · rfl

/-- Witness for C4: the scenario analysis flattens successfully and its
requirements agree with the filtered five sub-fields. -/
theorem C4_requirements_flattening_witness :
    ∃ doc : Document,
      store_document
          [(s2c "5_요구사항",
            JVal.obj [(s2c "비기능요구", JVal.str (s2c "load ≥ 1000 rps"))])]
          (s2c "content") none [] = some doc ∧
        doc.requirements =
          (fiveSubfields
            [(s2c "5_요구사항",
              JVal.obj [(s2c "비기능요구", JVal.str (s2c "load ≥ 1000 rps"))])]).filter
            pyTruthyJ := by
  refine ⟨⟨s2c "RFP Document", s2c "content",
    [JVal.str (s2c "load ≥ 1000 rps")], jEmpty, jEmpty, jEmpty, [], []⟩, rfl, ?_⟩
  exact C4_requirements_flattening.1 _ (s2c "content") none [] _ rfl

/-- C5 (amended): flattening an analysis that lacks category 4 entirely
succeeds, but `evaluation_criteria` is then the EMPTY mapping (serialized
`"\x7b\x7d"`), not a mapping of the three sub-field keys; the three-keys
shape, each defaulting independently to the empty string, arises exactly
when category 4 is present as an object. -/
theorem C5_eval_criteria_default :
    (∀ a : JDict, dictLookup a (s2c "4_평가선정기준") = none →
      extract_eval_criteria a = some []) ∧
    (∀ (a : JDict) (info : JDict),
      dictLookup a (s2c "4_평가선정기준") = some (JVal.obj info) →
      extract_eval_criteria a = some
        [(s2c "정량정성배점", dget info (s2c "정량정성배점") jEmpty),
         (s2c "가점감점요건", dget info (s2c "가점감점요건") jEmpty),
         (s2c "탈락필수요건", dget info (s2c "탈락필수요건") jEmpty)]) ∧
    (∀ (a : JDict) (content : Str) (pt : Option Str) (vec : List ℚ) (doc : Document),
      dictLookup a (s2c "4_평가선정기준") = none →
      store_document a content pt vec = some doc →
      doc.evaluation_criteria = []) := by
  refine ⟨?_, ?_, ?_⟩
  · intro a hlk
    simp only [extract_eval_criteria, hlk]
  · intro a info hlk
    simp only [extract_eval_criteria, hlk, asObj, Option.map_some']
  · intro a content pt vec doc hlk hdoc
    obtain ⟨t, b, d, r, e, ht, hb, hd, hr, he, rfl⟩ :=
      store_document_eq_some.mp hdoc
    show e = []
    simp only [extract_eval_criteria, hlk, Option.some.injEq] at he
    exact he.symm

/-- Witness for C5 (amended): the empty analysis lacks category 4; its
flattening succeeds with an empty `evaluation_criteria`. -/
theorem C5_eval_criteria_default_witness :
    dictLookup [] (s2c "4_평가선정기준") = none ∧
      extract_eval_criteria [] = some [] :=
  ⟨rfl, C5_eval_criteria_default.1 [] rfl⟩

/-- C5 counterexample: for an analysis with no category 4 at all,
flattening succeeds but `evaluation_criteria` is the empty mapping, which
is not the claimed mapping of the three fixed keys to empty strings. -/
theorem C5_eval_criteria_counterexample :
    (store_document [] (s2c "t") none []).map Document.evaluation_criteria =
      some [] ∧
    ([] : JDict) ≠
      [(s2c "정량정성배점", jEmpty), (s2c "가점감점요건", jEmpty),
       (s2c "탈락필수요건", jEmpty)] := by
  exact ⟨rfl, by simp⟩

/-- C6: for every stored document the title is resolved by strict
precedence — a truthy externally supplied extractor title always wins;
otherwise a non-empty string derived from the category-1 background and
outcome fields is used, truncated to 100 characters; otherwise the literal
fallback `"RFP Document"`. -/
theorem C6_title_precedence :
    (∀ (a : JDict) (content : Str) (vec : List ℚ) (pt : Option Str) (doc : Document),
      store_document a content pt vec = some doc →
      extract_title pt a = some doc.title) ∧
    (∀ (a : JDict) (t : Str), t ≠ [] → extract_title (some t) a = some t) ∧
    (∀ (a : JDict) (pt : Option Str) (core : JDict),
      (pt = none ∨ pt = some []) →
      dictLookup a (s2c "1_핵심개요") = some (JVal.obj core) →
      pyStrip (pyStr (dget core (s2c "배경목적") jEmpty) ++
          ' ' :: pyStr (dget core (s2c "기대성과") jEmpty)) ≠ [] →
      extract_title pt a = some ((pyStrip (pyStr (dget core (s2c "배경목적") jEmpty) ++
          ' ' :: pyStr (dget core (s2c "기대성과") jEmpty))).take 100)) ∧
    (∀ (a : JDict) (pt : Option Str),
      (pt = none ∨ pt = some []) →
      dictLookup a (s2c "1_핵심개요") = none →
      extract_title pt a = some (s2c "RFP Document")) ∧
    (∀ (a : JDict) (pt : Option Str) (core : JDict),
      (pt = none ∨ pt = some []) →
      dictLookup a (s2c "1_핵심개요") = some (JVal.obj core) →
      pyStrip (pyStr (dget core (s2c "배경목적") jEmpty) ++
          ' ' :: pyStr (dget core (s2c "기대성과") jEmpty)) = [] →
      extract_title pt a = some (s2c "RFP Document")) := by
  have hulp : ∀ (a : JDict) (pt : Option Str), (pt = none ∨ pt = some []) →
      extract_title pt a = derived_title a := by
    intro a pt hpt
    rcases hpt with h | h
    · subst h; rfl
    · subst h; rfl
  refine ⟨?_, ?_, ?_, ?_, ?_⟩
  · intro a content vec pt doc hdoc
    obtain ⟨t, b, d, r, e, ht, hb, hd, hr, he, rfl⟩ :=
      store_document_eq_some.mp hdoc
    exact ht
  · intro a t ht
    simp only [extract_title]
    rw [if_neg (by simpa [List.isEmpty_iff] using ht)]
  · intro a pt core hpt hlk hne
    rw [hulp a pt hpt]
    simp only [derived_title, hlk, asObj]
    rw [if_neg (by simpa [List.isEmpty_iff] using hne)]
  · intro a pt hpt hlk
    rw [hulp a pt hpt]
    simp only [derived_title, hlk]
  · intro a pt core hpt hlk hemp
    rw [hulp a pt hpt]
    simp only [derived_title, hlk, asObj]
    rw [if_pos (by simpa [List.isEmpty_iff] using hemp)]

/-- Witness for C6: a supplied non-empty extractor title wins. -/
theorem C6_title_precedence_witness :
    s2c "T" ≠ [] ∧ extract_title (some (s2c "T")) [] = some (s2c "T") :=
  ⟨by decide, C6_title_precedence.2.1 [] (s2c "T") (by decide)⟩

theorem dictLookup_eq_none (k : Str) :
    ∀ a : JDict, (∀ kv ∈ a, kv.1 ≠ k) → dictLookup a k = none := by
  intro a
  induction a with
  | nil => intro _; rfl
  | cons kv rest ih =>
    intro h
    obtain ⟨k1, v⟩ := kv
    simp only [dictLookup]
    rw [if_neg ?_]
    · exact ih (fun x hx => h x (List.mem_cons_of_mem _ hx))
    · intro hbeq
      exact h (k1, v) (List.mem_cons_self _ _) (by simpa using hbeq)

/-- C10: the fixed 11-category prompt schema defines no top-level key
named `project_type`; since `store_rfp_in_search` reads that key with the
empty-string default, every document built from an analysis whose keys all
come from the schema stores `project_type = ""`. -/
theorem C10_project_type_default :
    s2c "project_type" ∉ schemaKeys ∧
    (∀ (a : JDict) (content : Str) (pt : Option Str) (vec : List ℚ) (doc : Document),
      (∀ kv ∈ a, kv.1 ∈ schemaKeys) →
      store_document a content pt vec = some doc →
      doc.project_type = JVal.str []) := by
  constructor
  · decide
  · intro a content pt vec doc hkeys hdoc
    obtain ⟨t, b, d, r, e, ht, hb, hd, hr, he, rfl⟩ :=
      store_document_eq_some.mp hdoc
    show dget a (s2c "project_type") jEmpty = JVal.str []
    have hnone : dictLookup a (s2c "project_type") = none := by
      refine dictLookup_eq_none _ a ?_
      intro kv hkv heq
      have hmem : s2c "project_type" ∈ schemaKeys := heq ▸ hkeys kv hkv
      exact absurd hmem (by decide)
    rw [dget, hnone]
    rfl

/-- Witness for C10: an analysis holding only the schema key for
category 1 stores `project_type = ""`. -/
theorem C10_project_type_default_witness :
    ∃ doc : Document,
      store_document [(s2c "1_핵심개요", JVal.obj [])] (s2c "c") none [] = some doc ∧
        doc.project_type = JVal.str [] := by
  have hstore : store_document [(s2c "1_핵심개요", JVal.obj [])] (s2c "c") none [] =
      some ⟨s2c "RFP Document", s2c "c", [], jEmpty, jEmpty, jEmpty, [], []⟩ := rfl
  refine ⟨_, hstore, C10_project_type_default.2 _ (s2c "c") none [] _ ?_ hstore⟩
  intro kv hkv
  rw [List.mem_singleton] at hkv
  subst hkv
  decide
